import Mathlib

/-
Shallow embedding of the value-range analysis engine found in the
range-op / gimple-range sources of this repository (the range operator
table, its per-pair wide-int fold primitives, and the statement-level
range evaluator).

Machine integers (the wide_int values of the source) are modelled as
unbounded Int together with an explicit type descriptor carrying the
precision, signedness and overflow semantics; wrap-around is explicit
arithmetic modulo 2^prec.  A multi-range (irange) is modelled as its
ordered list of inclusive bound pairs; the empty list is the undefined
(unreachable) range and the single pair spanning the whole type domain
is the varying range, exactly as in the source representation.
-/

/-- A scalar integral type: precision in bits, signedness, and the two
overflow-semantics flags (TYPE_OVERFLOW_WRAPS / TYPE_OVERFLOW_UNDEFINED). -/
structure IType where
  prec : Nat
  sign : Bool
  wraps : Bool
  ovfUndef : Bool
deriving DecidableEq, Repr

/-- Lower limit of the representable domain (min_limit / wi::min_value). -/
def min_limit (t : IType) : Int :=
  if t.sign then -((2 : Int) ^ (t.prec - 1)) else 0

/-- Upper limit of the representable domain (max_limit / wi::max_value). -/
def max_limit (t : IType) : Int :=
  if t.sign then (2 : Int) ^ (t.prec - 1) - 1 else (2 : Int) ^ t.prec - 1

/-- Reinterpret an integer into the representable domain of T, i.e. the
truncation performed by wide_int arithmetic at a fixed precision. -/
def wrapVal (t : IType) (v : Int) : Int :=
  let m := v % ((2 : Int) ^ t.prec)
  if t.sign = true ∧ (2 : Int) ^ (t.prec - 1) ≤ m then m - (2 : Int) ^ t.prec else m

/-- The overflow indicator of wide-int arithmetic (wi::overflow_type). -/
inductive Ovf where
  | none
  | overflow
  | underflow
deriving DecidableEq, Repr

/-- Classify the mathematical result of an operation against the domain of T. -/
def classifyOvf (t : IType) (s : Int) : Ovf :=
  if max_limit t < s then Ovf.overflow
  else if s < min_limit t then Ovf.underflow
  else Ovf.none

/-- wi::add at the precision and sign of T: truncated sum plus overflow flag. -/
def addOvf (t : IType) (a b : Int) : Int × Ovf :=
  (wrapVal t (a + b), classifyOvf t (a + b))

/-- wi::sub at the precision and sign of T: truncated difference plus overflow flag. -/
def subOvf (t : IType) (a b : Int) : Int × Ovf :=
  (wrapVal t (a - b), classifyOvf t (a - b))

/-- A multi-range value (irange): ordered disjoint inclusive bound pairs.
The empty list is the undefined range; the pair list spanning the whole
domain of the associated type is the varying range. -/
abbrev VRange := List (Int × Int)

/-- The varying range for type T (set_varying): the full domain. -/
def set_varying (t : IType) : VRange := [(min_limit t, max_limit t)]

/-- First lower bound of a range (irange::lower_bound ()). -/
def lower_bound (r : VRange) : Int := (r.headD (0, 0)).1

/-- Last upper bound of a range (irange::upper_bound ()). -/
def upper_bound (r : VRange) : Int := (r.getLastD (0, 0)).2

/-- Lower bound of sub-range pair N (irange::lower_bound (n)). -/
def lower_bound_n (r : VRange) (n : Nat) : Int := (r.getD n (0, 0)).1

/-- Upper bound of sub-range pair N (irange::upper_bound (n)). -/
def upper_bound_n (r : VRange) (n : Nat) : Int := (r.getD n (0, 0)).2

/-- irange::contains_p for the value zero. -/
def contains_zero (r : VRange) : Bool :=
  r.any fun p => decide (p.1 ≤ 0) && decide (0 ≤ p.2)

/-- irange::zero_p: the range is exactly the singleton zero. -/
def zero_p (r : VRange) : Bool := decide (r = [(0, 0)])

/-- irange::varying_p for a range of type T. -/
def varying_p (t : IType) (r : VRange) : Bool := decide (r = set_varying t)

/-- The structural ordering invariant of an irange pair list: each pair is
a proper interval and consecutive pairs are separated by at least one
value (otherwise they would have been merged). -/
def pairsOrderedB : List (Int × Int) → Bool
  | [] => true
  | [(a, b)] => decide (a ≤ b)
  | (a, b) :: (c, d) :: rest =>
    decide (a ≤ b) && decide (b + 1 < c) && pairsOrderedB ((c, d) :: rest)

/-- Every pair of the list is a proper interval inside the domain of T. -/
def inDomainB (t : IType) (r : VRange) : Bool :=
  r.all fun p =>
    decide (min_limit t ≤ p.1) && decide (p.1 ≤ p.2) && decide (p.2 ≤ max_limit t)

/-- A well-formed irange value for type T. -/
def wfB (t : IType) (r : VRange) : Bool := pairsOrderedB r && inDomainB t r

/-- Merge two pair lists sorted by lower bound into one sorted list. -/
def mergeLists : List (Int × Int) → List (Int × Int) → List (Int × Int)
  | [], ys => ys
  | x :: xs, [] => x :: xs
  | x :: xs, y :: ys =>
    if x.1 ≤ y.1 then x :: mergeLists xs (y :: ys) else y :: mergeLists (x :: xs) ys
termination_by xs ys => xs.length + ys.length

/-- Normalize a sorted pair list by fusing overlapping or adjacent pairs,
as the irange representation does after a mutation. -/
def mergeRun : List (Int × Int) → List (Int × Int)
  | [] => []
  | [p] => [p]
  | (a, b) :: (c, d) :: rest =>
    if c ≤ b + 1 then mergeRun ((a, max b d) :: rest)
    else (a, b) :: mergeRun ((c, d) :: rest)
termination_by l => l.length

/-- irange::union_ : merge the sub-ranges of both operands and re-normalize.
Union with undefined is identity; a union covering the whole domain is the
varying representation itself. -/
def union_ (r o : VRange) : VRange := mergeRun (mergeLists r o)

/-- irange::intersect : pairwise intersection of all sub-range pairs; an
empty result is the undefined range. -/
def intersect (r o : VRange) : VRange :=
  r.flatMap fun p => o.filterMap fun q =>
    if max p.1 q.1 ≤ min p.2 q.2 then some (max p.1 q.1, min p.2 q.2) else none

/-- Boolean TRUE as a range (range_true). -/
def range_true (_t : IType) : VRange := [(1, 1)]

/-- Boolean FALSE as a range (range_false). -/
def range_false (_t : IType) : VRange := [(0, 0)]

/-- Both boolean states as a range (range_true_and_false). -/
def range_true_and_false (_t : IType) : VRange := [(0, 1)]

/-- Return TRUE if 0 is within [WMIN, WMAX] (wi_includes_zero_p). -/
def wi_includes_zero_p (wmin wmax : Int) : Bool :=
  decide (wmin ≤ 0) && decide (0 ≤ wmax)

/-- Return TRUE if [WMIN, WMAX] is the singleton 0 (wi_zero_p). -/
def wi_zero_p (wmin wmax : Int) : Bool :=
  decide (wmin = wmax) && decide (wmin = 0)

/-- Create a range from a pair of wide-ints known to have overflowed
(value_range_from_overflowed_bounds): the result is the complement
(anti-range) of the interval of infeasible values, or varying when that
anti-range would cover nothing or its bounds ended up inverted. -/
def value_range_from_overflowed_bounds (t : IType) (wmin wmax : Int) : VRange :=
  let tem := wmin
  let tmin1 := wrapVal t (wmax + 1)
  let covers1 := tmin1 < wmax
  let tmax1 := wrapVal t (tem - 1)
  let covers2 := tem < tmax1
  if covers1 ∨ covers2 ∨ tmax1 < tmin1 then set_varying t
  else
    (if min_limit t ≤ tmin1 - 1 then [(min_limit t, tmin1 - 1)] else []) ++
    (if tmax1 + 1 ≤ max_limit t then [(tmax1 + 1, max_limit t)] else [])

/-- Create a range from a pair of wide-ints with their overflow indicators
(value_range_with_overflow).  WMIN and WMAX are already truncated to the
precision of T, exactly as wide-int arithmetic returns them. -/
def value_range_with_overflow (t : IType) (wmin wmax : Int)
    (min_ovf max_ovf : Ovf) : VRange :=
  if t.prec = 1 ∧ wmax ≠ wmin then set_varying t
  else if t.wraps = true then
    if (min_ovf ≠ Ovf.none) ↔ (max_ovf ≠ Ovf.none) then
      let tmin1 := wrapVal t wmin
      let tmax1 := wrapVal t wmax
      if tmax1 < tmin1 then set_varying t else [(tmin1, tmax1)]
    else if (min_ovf = Ovf.underflow ∧ max_ovf = Ovf.none) ∨
            (max_ovf = Ovf.overflow ∧ min_ovf = Ovf.none) then
      value_range_from_overflowed_bounds t wmin wmax
    else set_varying t
  else
    if (min_ovf = Ovf.overflow ∧ max_ovf = Ovf.overflow) ∨
       (min_ovf = Ovf.underflow ∧ max_ovf = Ovf.underflow) then []
    else
      let new_lb :=
        if min_ovf = Ovf.underflow then min_limit t
        else if min_ovf = Ovf.overflow then max_limit t
        else wmin
      let new_ub :=
        if max_ovf = Ovf.underflow then min_limit t
        else if max_ovf = Ovf.overflow then max_limit t
        else wmax
      [(new_lb, new_ub)]

/-- operator_plus::wi_fold: add the bound extremes with overflow detection
and build the result through value_range_with_overflow. -/
def operator_plus_wi_fold (t : IType) (lh_lb lh_ub rh_lb rh_ub : Int) : VRange :=
  let lb := addOvf t lh_lb rh_lb
  let ub := addOvf t lh_ub rh_ub
  value_range_with_overflow t lb.1 ub.1 lb.2 ub.2

/-- operator_minus::wi_fold: subtract the opposing bound extremes with
overflow detection and build the result through value_range_with_overflow. -/
def operator_minus_wi_fold (t : IType) (lh_lb lh_ub rh_lb rh_ub : Int) : VRange :=
  let lb := subOvf t lh_lb rh_ub
  let ub := subOvf t lh_ub rh_lb
  value_range_with_overflow t lb.1 ub.1 lb.2 ub.2

/-- The four division variants handled by operator_div. -/
inductive DivKind where
  | trunc
  | floor
  | ceil
  | round
deriving DecidableEq, Repr

/-- Truncating division (wi::div_trunc). -/
def divTrunc (a b : Int) : Int := Int.tdiv a b

/-- Flooring division (wi::div_floor). -/
def divFloor (a b : Int) : Int := Int.fdiv a b

/-- Ceiling division (wi::div_ceil). -/
def divCeil (a b : Int) : Int := -(Int.fdiv (-a) b)

/-- Rounding division, ties away from zero (wi::div_round). -/
def divRound (a b : Int) : Int :=
  let q := Int.tdiv a b
  let r := Int.tmod a b
  if r = 0 then q
  else if b.natAbs ≤ 2 * r.natAbs then
    if (decide (a < 0)) = (decide (b < 0)) then q + 1 else q - 1
  else q

/-- Dispatch a division variant. -/
def divOf (k : DivKind) (a b : Int) : Int :=
  match k with
  | DivKind.trunc => divTrunc a b
  | DivKind.floor => divFloor a b
  | DivKind.ceil => divCeil a b
  | DivKind.round => divRound a b

/-- operator_div::wi_op_overflows: none signals that the operation
overflowed (the C function returning true); division only overflows for
a zero divisor or for type-minimum divided by minus one, and when
overflow is undefined for the type the latter saturates to the maximum. -/
def operator_div_wi_op_overflows (k : DivKind) (t : IType) (w0 w1 : Int) : Option Int :=
  if w1 = 0 then none
  else
    let ovf := t.sign = true ∧ w0 = min_limit t ∧ w1 = -1
    let res := wrapVal t (divOf k w0 w1)
    if ovf then (if t.ovfUndef then some (max_limit t) else none)
    else some res

/-- cross_product_operator::wi_cross_product: evaluate the operation at the
four corner combinations (reusing corners when an operand is a singleton),
bail out to varying on overflow, order the pairs and take the extremes. -/
def wi_cross_product (f : Int → Int → Option Int) (t : IType)
    (lh_lb lh_ub rh_lb rh_ub : Int) : VRange :=
  match f lh_lb rh_lb with
  | Option.none => set_varying t
  | Option.some cp1 =>
    match (if lh_lb = lh_ub then Option.some cp1 else f lh_ub rh_lb) with
    | Option.none => set_varying t
    | Option.some cp3 =>
      match (if rh_lb = rh_ub then Option.some cp1 else f lh_lb rh_ub) with
      | Option.none => set_varying t
      | Option.some cp2 =>
        match (if lh_lb = lh_ub then Option.some cp2 else f lh_ub rh_ub) with
        | Option.none => set_varying t
        | Option.some cp4 =>
          let p12 := if cp2 < cp1 then (cp2, cp1) else (cp1, cp2)
          let p34 := if cp4 < cp3 then (cp4, cp3) else (cp3, cp4)
          value_range_with_overflow t (min p12.1 p34.1) (max p12.2 p34.2)
            Ovf.none Ovf.none

/-- operator_div::wi_fold.  CANTHROW is cfun->can_throw_non_call_exceptions.
A divisor sub-range of exactly [0,0] is answered by the first test, which
returns varying; the divisor range is otherwise split around zero and the
two halves are solved by corner cross products and unioned. -/
def operator_div_wi_fold (k : DivKind) (canThrow : Bool) (t : IType)
    (lh_lb lh_ub rh_lb rh_ub : Int) : VRange :=
  if rh_lb = 0 ∧ rh_ub = 0 then set_varying t
  else if ¬ (wi_includes_zero_p rh_lb rh_ub = true) then
    wi_cross_product (operator_div_wi_op_overflows k t) t lh_lb lh_ub rh_lb rh_ub
  else if canThrow = true then set_varying t
  else if wi_zero_p rh_lb rh_ub = true then []
  else
    let r :=
      if rh_lb < 0 then
        wi_cross_product (operator_div_wi_op_overflows k t) t lh_lb lh_ub rh_lb (-1)
      else []
    if 0 < rh_ub then
      union_ r (wi_cross_product (operator_div_wi_op_overflows k t) t lh_lb lh_ub 1 rh_ub)
    else r

/-- operator_lt::fold_range: compare the bound extremes. -/
def operator_lt_fold_range (t : IType) (op1 op2 : VRange) : VRange :=
  if op1 = [] ∨ op2 = [] then set_varying t
  else if upper_bound op1 < lower_bound op2 then range_true t
  else if ¬ lower_bound op1 < upper_bound op2 then range_false t
  else range_true_and_false t

/-- An unsigned 8-bit type. -/
def u8 : IType := ⟨8, false, true, false⟩

/-- A signed 8-bit type with undefined overflow. -/
def i8 : IType := ⟨8, true, false, true⟩

/-- A signed 1-bit type (a one-bit signed bit-field) with undefined overflow. -/
def i1 : IType := ⟨1, true, false, true⟩

/-- The boolean type: one unsigned bit with wrapping overflow. -/
def bool1 : IType := ⟨1, false, true, false⟩

/-- Claim C1 as stated: division by an exactly-[0,0] divisor sub-range
yields undefined unless can_throw_non_call_exceptions makes the trap
observable.  The code refutes this: its first test answers varying for a
[0,0] divisor before the exception model or the undefined branch is ever
consulted, so with can_throw false the result is varying, not undefined. -/
theorem operator_div_wi_fold_zero_divisor_not_undefined :
    operator_div_wi_fold DivKind.trunc false u8 1 1 0 0 = set_varying u8 ∧
    ¬ operator_div_wi_fold DivKind.trunc false u8 1 1 0 0 = ([] : VRange) := by
  constructor
  · rfl
  · decide

/-- Claim C1 amended: for every division variant, every exception model and
every integral type, a divisor sub-range of exactly [0,0] makes wi_fold
return the varying range; the set_undefined branch further down the
function is unreachable. -/
theorem operator_div_wi_fold_zero_divisor_varying
    (k : DivKind) (canThrow : Bool) (t : IType) (lh_lb lh_ub : Int) :
    operator_div_wi_fold k canThrow t lh_lb lh_ub 0 0 = set_varying t := by
  unfold operator_div_wi_fold
  simp

/-- Claim C4: for non-undefined operand ranges, the less-than fold is
definitely true exactly when op1.upper is below op2.lower, definitely
false exactly when op1.lower is at or above op2.upper, and the two-state
boolean range otherwise; in particular [10,20] < [15,30] gives both
states and [10,20] < [25,30] gives definitely true. -/
theorem operator_lt_fold_range_spec (t : IType) (op1 op2 : VRange)
    (h1 : op1 ≠ []) (h2 : op2 ≠ [])
    (ho1 : lower_bound op1 ≤ upper_bound op1)
    (ho2 : lower_bound op2 ≤ upper_bound op2) :
    (operator_lt_fold_range t op1 op2 = range_true t ↔
      upper_bound op1 < lower_bound op2) ∧
    (operator_lt_fold_range t op1 op2 = range_false t ↔
      upper_bound op2 ≤ lower_bound op1) ∧
    (¬ upper_bound op1 < lower_bound op2 → ¬ upper_bound op2 ≤ lower_bound op1 →
      operator_lt_fold_range t op1 op2 = range_true_and_false t) ∧
    operator_lt_fold_range bool1 [(10, 20)] [(15, 30)] = range_true_and_false bool1 ∧
    operator_lt_fold_range bool1 [(10, 20)] [(25, 30)] = range_true bool1 := by
  refine ⟨?_, ?_, ?_, by decide, by decide⟩
  · unfold operator_lt_fold_range
    rw [if_neg (by simp [h1, h2])]
    constructor
    · intro h
      by_contra hlt
      rw [if_neg hlt] at h
      by_cases hf : ¬ lower_bound op1 < upper_bound op2
      · rw [if_pos hf] at h
        simp [range_false, range_true] at h
      · rw [if_neg hf] at h
        simp [range_true_and_false, range_true] at h
    · intro h
      rw [if_pos h]
  · unfold operator_lt_fold_range
    rw [if_neg (by simp [h1, h2])]
    constructor
    · intro h
      by_cases hlt : upper_bound op1 < lower_bound op2
      · rw [if_pos hlt] at h
        simp [range_true, range_false] at h
      · rw [if_neg hlt] at h
        by_cases hf : ¬ lower_bound op1 < upper_bound op2
        · omega
        · rw [if_neg hf] at h
          simp [range_true_and_false, range_false] at h
    · intro h
      have hlt : ¬ upper_bound op1 < lower_bound op2 := by omega
      rw [if_neg hlt, if_pos (by omega)]
  · intro ha hb
    unfold operator_lt_fold_range
    rw [if_neg (by simp [h1, h2]), if_neg ha, if_neg (by omega)]

/-- Witness for the C4 theorem at concrete inputs. -/
theorem operator_lt_fold_range_spec_witness :
    ([(10, 20)] : VRange) ≠ [] ∧ ([(25, 30)] : VRange) ≠ [] ∧
    operator_lt_fold_range bool1 [(10, 20)] [(25, 30)] = range_true bool1 := by
  refine ⟨by decide, by decide, ?_⟩
  exact ((operator_lt_fold_range_spec bool1 [(10, 20)] [(25, 30)]
    (by decide) (by decide) (by decide) (by decide)).1).2 (by decide)

/-- The lower limit of a type never exceeds the upper limit. -/
theorem min_le_max_limit (t : IType) : min_limit t ≤ max_limit t := by
  unfold min_limit max_limit
  have h1 : (0 : Int) < 2 ^ (t.prec - 1) := by positivity
  have h2 : (0 : Int) < 2 ^ t.prec := by positivity
  by_cases h : t.sign <;> simp [h] <;> omega

/-- A pair list that satisfies the ordering invariant is already normalized. -/
theorem mergeRun_id : ∀ (l : List (Int × Int)), pairsOrderedB l = true → mergeRun l = l
  | [], _ => by simp [mergeRun]
  | [p], _ => by simp [mergeRun]
  | (a, b) :: (c, d) :: rest, h => by
    simp only [pairsOrderedB, Bool.and_eq_true, decide_eq_true_eq] at h
    simp only [mergeRun]
    rw [if_neg (by omega)]
    rw [mergeRun_id ((c, d) :: rest) h.2]

/-- Normalizing a pair headed by an interval that encloses every later pair
collapses the list to that single interval. -/
theorem mergeRun_cover : ∀ (l : List (Int × Int)) (A B : Int),
    (∀ p ∈ l, p.1 ≤ B + 1 ∧ p.2 ≤ B) → mergeRun ((A, B) :: l) = [(A, B)]
  | [], _, _, _ => by simp [mergeRun]
  | (c, d) :: rest, A, B, h => by
    have hc := h (c, d) (by simp)
    simp only [mergeRun]
    rw [if_pos (by omega : c ≤ B + 1)]
    rw [show max B d = B by omega]
    exact mergeRun_cover rest A B (fun p hp => h p (by simp [hp]))

/-- Merging the empty pair list on the left is the identity. -/
theorem mergeLists_nil_left (o : List (Int × Int)) : mergeLists [] o = o := by
  cases o <;> simp [mergeLists]

/-- Union with the undefined range is identity (for a normalized operand). -/
theorem union_undefined_left (o : VRange) (h : pairsOrderedB o = true) :
    union_ [] o = o := by
  unfold union_
  rw [mergeLists_nil_left]
  exact mergeRun_id o h

/-- Union with the varying range absorbs any in-domain operand. -/
theorem union_varying_left (t : IType) (o : VRange) (h : inDomainB t o = true) :
    union_ (set_varying t) o = set_varying t := by
  unfold union_ set_varying
  cases o with
  | nil => simp [mergeLists, mergeRun]
  | cons y ys =>
    have hy : min_limit t ≤ y.1 ∧ y.1 ≤ y.2 ∧ y.2 ≤ max_limit t := by
      simp only [inDomainB, List.all_cons, Bool.and_eq_true, decide_eq_true_eq] at h
      exact ⟨h.1.1.1, h.1.1.2, h.1.2⟩
    have hall : ∀ p ∈ y :: ys, p.1 ≤ max_limit t + 1 ∧ p.2 ≤ max_limit t := by
      intro p hp
      simp only [inDomainB, List.all_eq_true, Bool.and_eq_true, decide_eq_true_eq] at h
      have := h p hp
      omega
    rw [show mergeLists [(min_limit t, max_limit t)] (y :: ys) =
        (min_limit t, max_limit t) :: y :: ys from by
      simp only [mergeLists]
      rw [if_pos hy.1]]
    exact mergeRun_cover (y :: ys) _ _ hall

/-- Folding further unions from the varying accumulator stays varying. -/
theorem foldl_union_varying (t : IType) :
    ∀ (l : List VRange), (∀ x ∈ l, inDomainB t x = true) →
      l.foldl union_ (set_varying t) = set_varying t
  | [], _ => rfl
  | x :: xs, h => by
    simp only [List.foldl_cons]
    rw [union_varying_left t x (h x (by simp))]
    exact foldl_union_varying t xs (fun y hy => h y (by simp [hy]))

/-- The signature of a per-pair wide-int fold primitive (wi_fold). -/
abbrev WiFoldFn := IType → Int → Int → Int → Int → VRange

/-- range_operator::wi_fold, the default primitive of a handler that does
not supply one: it answers the varying range for every pair. -/
def range_operator_wi_fold_default (t : IType) (_lh_lb _lh_ub _rh_lb _rh_ub : Int) :
    VRange := set_varying t

/-- All cross-product combinations of the sub-range pairs of two ranges,
in the iteration order of the fold loop (left pairs outer, right inner). -/
def cross_pairs (lh rh : VRange) : List ((Int × Int) × (Int × Int)) :=
  lh.flatMap fun lp => rh.map fun rp => (lp, rp)

/-- The accumulation loop of range_operator::fold_range: union the per-pair
primitive results, returning as soon as the accumulator reaches varying. -/
def fold_range_pairs (wf : WiFoldFn) (t : IType) :
    List ((Int × Int) × (Int × Int)) → VRange → VRange
  | [], r => r
  | pr :: rest, r =>
    let tmp := wf t pr.1.1 pr.1.2 pr.2.1 pr.2.2
    let r2 := union_ r tmp
    if varying_p t r2 = true then r2 else fold_range_pairs wf t rest r2

/-- range_operator::fold_range, the default forward fold: undefined operands
give varying; a single pair on each side is folded directly; otherwise every
cross-product pair is folded and unioned with early exit at varying. -/
def range_operator_fold_range (wf : WiFoldFn) (t : IType) (lh rh : VRange) :
    VRange × Bool :=
  if lh = [] ∨ rh = [] then (set_varying t, true)
  else if lh.length = 1 ∧ rh.length = 1 then
    (wf t (lower_bound_n lh 0) (upper_bound_n lh 0)
          (lower_bound_n rh 0) (upper_bound_n rh 0), true)
  else (fold_range_pairs wf t (cross_pairs lh rh) [], true)

/-- The claimed behavior of the default fold: the union of the per-pair
primitive applied to every cross-product pair of sub-ranges. -/
def fold_range_cross_union (wf : WiFoldFn) (t : IType) (lh rh : VRange) : VRange :=
  ((cross_pairs lh rh).map fun pr => wf t pr.1.1 pr.1.2 pr.2.1 pr.2.2).foldl union_ []

/-- The early-exit accumulation loop computes the plain left fold of the
unions, provided the primitive only produces well-formed ranges. -/
theorem fold_range_pairs_eq (wf : WiFoldFn) (t : IType)
    (hwf : ∀ a b c d, wfB t (wf t a b c d) = true) :
    ∀ (pairs : List ((Int × Int) × (Int × Int))) (r : VRange),
      fold_range_pairs wf t pairs r =
        (pairs.map fun pr => wf t pr.1.1 pr.1.2 pr.2.1 pr.2.2).foldl union_ r
  | [], r => rfl
  | pr :: rest, r => by
    simp only [fold_range_pairs, List.map_cons, List.foldl_cons]
    by_cases hv : varying_p t (union_ r (wf t pr.1.1 pr.1.2 pr.2.1 pr.2.2)) = true
    · rw [if_pos hv]
      have hveq : union_ r (wf t pr.1.1 pr.1.2 pr.2.1 pr.2.2) = set_varying t := by
        simpa [varying_p] using hv
      rw [hveq]
      rw [foldl_union_varying t _ (by
        intro x hx
        simp only [List.mem_map] at hx
        obtain ⟨q, _, hq⟩ := hx
        have := hwf q.1.1 q.1.2 q.2.1 q.2.2
        rw [hq] at this
        exact (Bool.and_eq_true _ _ |>.mp this).2)]
    · rw [if_neg hv]
      exact fold_range_pairs_eq wf t hwf rest _

/-- Claim C3: the default fold answers varying (successfully) when either
operand is undefined; otherwise it equals the union of the per-pair
primitive over every cross-product pair of sub-ranges (the early exit at
varying does not change the outcome); and a handler that supplies no
wi_fold primitive folds every non-degenerate input to varying. -/
theorem range_operator_fold_range_spec (wf : WiFoldFn) (t : IType) (lh rh : VRange)
    (hwf : ∀ a b c d, wfB t (wf t a b c d) = true) :
    (lh = [] ∨ rh = [] → range_operator_fold_range wf t lh rh = (set_varying t, true)) ∧
    (lh ≠ [] → rh ≠ [] →
      range_operator_fold_range wf t lh rh = (fold_range_cross_union wf t lh rh, true)) ∧
    (∀ lh2 rh2 : VRange,
      range_operator_fold_range range_operator_wi_fold_default t lh2 rh2 =
        (set_varying t, true)) := by
  refine ⟨?_, ?_, ?_⟩
  · intro h
    unfold range_operator_fold_range
    rw [if_pos h]
  · intro h1 h2
    unfold range_operator_fold_range
    rw [if_neg (by simp [h1, h2])]
    by_cases hs : lh.length = 1 ∧ rh.length = 1
    · rw [if_pos hs]
      obtain ⟨p, hp⟩ : ∃ p, lh = [p] := by
        cases lh with
        | nil => exact absurd rfl h1
        | cons a as =>
          cases as with
          | nil => exact ⟨a, rfl⟩
          | cons b bs => simp at hs
      obtain ⟨q, hq⟩ : ∃ q, rh = [q] := by
        cases rh with
        | nil => exact absurd rfl h2
        | cons a as =>
          cases as with
          | nil => exact ⟨a, rfl⟩
          | cons b bs => simp at hs
      subst hp hq
      unfold fold_range_cross_union cross_pairs
      simp only [List.flatMap_cons, List.map_cons, List.map_nil, List.flatMap_nil,
        List.append_nil, List.foldl_cons, List.foldl_nil]
      rw [union_undefined_left _ (by
        have := hwf p.1 p.2 q.1 q.2
        exact (Bool.and_eq_true _ _ |>.mp this).1)]
      simp [lower_bound_n, upper_bound_n]
    · rw [if_neg hs]
      unfold fold_range_cross_union
      rw [fold_range_pairs_eq wf t hwf]
  · intro lh2 rh2
    unfold range_operator_fold_range
    by_cases h0 : lh2 = [] ∨ rh2 = []
    · rw [if_pos h0]
    · rw [if_neg h0]
      push_neg at h0
      by_cases hs : lh2.length = 1 ∧ rh2.length = 1
      · rw [if_pos hs]
        rfl
      · rw [if_neg hs]
        obtain ⟨p, ps, hp⟩ : ∃ p ps, lh2 = p :: ps := by
          cases lh2 with
          | nil => exact absurd rfl h0.1
          | cons a as => exact ⟨a, as, rfl⟩
        obtain ⟨q, qs, hq⟩ : ∃ q qs, rh2 = q :: qs := by
          cases rh2 with
          | nil => exact absurd rfl h0.2
          | cons a as => exact ⟨a, as, rfl⟩
        subst hp hq
        unfold cross_pairs
        simp only [List.flatMap_cons, List.map_cons, List.cons_append]
        simp only [fold_range_pairs, range_operator_wi_fold_default]
        rw [union_undefined_left (set_varying t) (by
          simp [pairsOrderedB, set_varying, min_le_max_limit t])]
        rw [if_pos (by simp [varying_p])]

/-- Witness for the C3 theorem: the default fold of a two-pair range with a
one-pair range at the unsigned 8-bit type. -/
theorem range_operator_fold_range_spec_witness :
    (([(1, 2), (4, 5)] : VRange) ≠ [] ∧ ([(0, 3)] : VRange) ≠ []) ∧
    range_operator_fold_range range_operator_wi_fold_default u8 [(1, 2), (4, 5)] [(0, 3)] =
      (fold_range_cross_union range_operator_wi_fold_default u8 [(1, 2), (4, 5)] [(0, 3)], true) := by
  refine ⟨⟨by decide, by decide⟩, ?_⟩
  exact (range_operator_fold_range_spec range_operator_wi_fold_default u8
    [(1, 2), (4, 5)] [(0, 3)]
    (fun a b c d => by
      show wfB u8 (set_varying u8) = true
      decide)).2.1 (by decide) (by decide)

/-- Truncation is the identity on values already inside the domain of T. -/
theorem wrapVal_id (t : IType) (hp : 1 ≤ t.prec) (x : Int)
    (h1 : min_limit t ≤ x) (h2 : x ≤ max_limit t) : wrapVal t x = x := by
  obtain ⟨n, hn⟩ : ∃ n, t.prec = n + 1 := ⟨t.prec - 1, by omega⟩
  have hH : (2 : Int) ^ (t.prec - 1) = 2 ^ n := by rw [hn]; simp
  have hP : (2 : Int) ^ t.prec = 2 * 2 ^ n := by rw [hn, pow_succ]; ring
  have hpos : (0 : Int) < 2 ^ n := by positivity
  unfold wrapVal
  unfold min_limit at h1
  unfold max_limit at h2
  by_cases hs : t.sign = true
  · rw [hs] at h1 h2
    simp only [if_true] at h1 h2
    rw [hH] at h1 h2
    rcases le_or_lt 0 x with hx | hx
    · have hm : x % ((2 : Int) ^ t.prec) = x := by
        rw [hP]; exact Int.emod_eq_of_lt hx (by omega)
      rw [hm, if_neg (by rw [hH]; omega)]
    · have hm : x % ((2 : Int) ^ t.prec) = x + 2 * 2 ^ n := by
        rw [hP]
        have he : (x + 2 * 2 ^ n) % (2 * 2 ^ n) = x % (2 * 2 ^ n) := by
          conv_lhs => rw [show x + 2 * 2 ^ n = x + 2 * 2 ^ n * 1 by ring]
          rw [Int.add_mul_emod_self_left]
        rw [← he]
        exact Int.emod_eq_of_lt (by omega) (by omega)
      rw [hm, if_pos (by constructor; exact hs; rw [hH]; omega), hP]
      ring
  · have hs2 : t.sign = false := by
      cases hq : t.sign
      · rfl
      · exact absurd hq hs
    rw [hs2] at h1 h2
    simp only [if_false, Bool.false_eq_true] at h1 h2
    have hm : x % ((2 : Int) ^ t.prec) = x := by
      rw [hP]
      rw [hP] at h2
      exact Int.emod_eq_of_lt h1 (by omega)
    rw [hm, if_neg (by rw [hs2]; simp)]

/-- The last upper bound of a list ignores its first pair when a second exists. -/
theorem upper_bound_cons_cons (p q : Int × Int) (l : List (Int × Int)) :
    upper_bound (p :: q :: l) = upper_bound (q :: l) := by
  unfold upper_bound
  rfl

/-- A nonempty ordered pair list has its first lower bound at or below its
last upper bound. -/
theorem lower_le_upper_of_ordered :
    ∀ (l : List (Int × Int)), pairsOrderedB l = true → l ≠ [] →
      lower_bound l ≤ upper_bound l
  | [], _, hne => absurd rfl hne
  | [(a, b)], h, _ => by
    simp only [pairsOrderedB, decide_eq_true_eq] at h
    simpa [lower_bound, upper_bound] using h
  | (a, b) :: (c, d) :: rest, h, _ => by
    simp only [pairsOrderedB, Bool.and_eq_true, decide_eq_true_eq] at h
    have ih := lower_le_upper_of_ordered ((c, d) :: rest) h.2 (by simp)
    rw [upper_bound_cons_cons]
    simp only [lower_bound, List.headD_cons] at ih ⊢
    omega

/-- (X < VAL) produces [MIN, VAL - 1], or undefined when the decrement
underflows (build_lt). -/
def build_lt (t : IType) (val : Int) : VRange :=
  let s := subOvf t val 1
  if s.2 ≠ Ovf.none then [] else [(min_limit t, s.1)]

/-- (X <= VAL) produces [MIN, VAL] (build_le). -/
def build_le (t : IType) (val : Int) : VRange := [(min_limit t, val)]

/-- (X > VAL) produces [VAL + 1, MAX], or undefined when the increment
overflows (build_gt). -/
def build_gt (t : IType) (val : Int) : VRange :=
  let s := addOvf t val 1
  if s.2 ≠ Ovf.none then [] else [(s.1, max_limit t)]

/-- (X >= VAL) produces [VAL, MAX] (build_ge). -/
def build_ge (t : IType) (val : Int) : VRange := [(val, max_limit t)]

/-- The summary states of a boolean result range (bool_range_state). -/
inductive BoolRangeState where
  | brsFalse
  | brsTrue
  | brsEmpty
  | brsFull
deriving DecidableEq, Repr

/-- get_bool_state: undefined result is unexecutable; an exactly-zero range
is false; a range still containing zero leaves both states open; anything
else is definitely true. -/
def get_bool_state (lhs : VRange) : BoolRangeState :=
  if lhs = [] then BoolRangeState.brsEmpty
  else if zero_p lhs = true then BoolRangeState.brsFalse
  else if contains_zero lhs = true then BoolRangeState.brsFull
  else BoolRangeState.brsTrue

/-- operator_lt::op1_range. -/
def operator_lt_op1_range (t : IType) (lhs op2 : VRange) : VRange :=
  match get_bool_state lhs with
  | BoolRangeState.brsEmpty => []
  | BoolRangeState.brsFull => set_varying t
  | BoolRangeState.brsTrue => build_lt t (upper_bound op2)
  | BoolRangeState.brsFalse => build_ge t (lower_bound op2)

/-- operator_le::op1_range. -/
def operator_le_op1_range (t : IType) (lhs op2 : VRange) : VRange :=
  match get_bool_state lhs with
  | BoolRangeState.brsEmpty => []
  | BoolRangeState.brsFull => set_varying t
  | BoolRangeState.brsTrue => build_le t (upper_bound op2)
  | BoolRangeState.brsFalse => build_gt t (lower_bound op2)

/-- operator_gt::op1_range. -/
def operator_gt_op1_range (t : IType) (lhs op2 : VRange) : VRange :=
  match get_bool_state lhs with
  | BoolRangeState.brsEmpty => []
  | BoolRangeState.brsFull => set_varying t
  | BoolRangeState.brsTrue => build_gt t (lower_bound op2)
  | BoolRangeState.brsFalse => build_le t (upper_bound op2)

/-- operator_ge::op1_range. -/
def operator_ge_op1_range (t : IType) (lhs op2 : VRange) : VRange :=
  match get_bool_state lhs with
  | BoolRangeState.brsEmpty => []
  | BoolRangeState.brsFull => set_varying t
  | BoolRangeState.brsTrue => build_ge t (lower_bound op2)
  | BoolRangeState.brsFalse => build_lt t (upper_bound op2)

/-- classifyOvf answers no-overflow inside the domain. -/
theorem classifyOvf_eq_none (t : IType) (s : Int)
    (h1 : min_limit t ≤ s) (h2 : s ≤ max_limit t) : classifyOvf t s = Ovf.none := by
  unfold classifyOvf
  rw [if_neg (by omega), if_neg (by omega)]

/-- classifyOvf answers underflow below the domain. -/
theorem classifyOvf_eq_underflow (t : IType) (s : Int)
    (hmm : min_limit t ≤ max_limit t) (h : s < min_limit t) :
    classifyOvf t s = Ovf.underflow := by
  unfold classifyOvf
  rw [if_neg (by omega), if_pos h]

/-- classifyOvf answers overflow above the domain. -/
theorem classifyOvf_eq_overflow (t : IType) (s : Int)
    (h : max_limit t < s) : classifyOvf t s = Ovf.overflow := by
  unfold classifyOvf
  rw [if_pos h]

/-- build_lt in closed form: empty exactly at the type minimum. -/
theorem build_lt_eq (t : IType) (hp : 1 ≤ t.prec) (v : Int)
    (h1 : min_limit t ≤ v) (h2 : v ≤ max_limit t) :
    build_lt t v = (if v = min_limit t then [] else [(min_limit t, v - 1)]) := by
  have hmm := min_le_max_limit t
  simp only [build_lt, subOvf]
  by_cases hv : v = min_limit t
  · rw [classifyOvf_eq_underflow t (v - 1) hmm (by omega)]
    simp [hv]
  · rw [classifyOvf_eq_none t (v - 1) (by omega) (by omega)]
    simp [hv, wrapVal_id t hp (v - 1) (by omega) (by omega)]

/-- build_gt in closed form: empty exactly at the type maximum. -/
theorem build_gt_eq (t : IType) (hp : 1 ≤ t.prec) (v : Int)
    (h1 : min_limit t ≤ v) (h2 : v ≤ max_limit t) :
    build_gt t v = (if v = max_limit t then [] else [(v + 1, max_limit t)]) := by
  have hmm := min_le_max_limit t
  simp only [build_gt, addOvf]
  by_cases hv : v = max_limit t
  · rw [classifyOvf_eq_overflow t (v + 1) (by omega)]
    simp [hv]
  · rw [classifyOvf_eq_none t (v + 1) (by omega) (by omega)]
    simp [hv, wrapVal_id t hp (v + 1) (by omega) (by omega)]

/-- Claim C5: a definitely-true less-than result inverts the left operand
to [MIN, V-1] with V the upper bound of op2, degrading to the undefined
range when the decrement underflows; a definitely-false result gives
[V2, MAX] with V2 the lower bound of op2; and the other three ordered
comparisons use the analogous predecessor/successor constructions, with
an overflowing increment likewise giving the undefined range. -/
theorem comparison_op1_range_spec (t : IType) (hp : 1 ≤ t.prec)
    (lhsT lhsF op2 : VRange)
    (hT1 : lhsT ≠ []) (hT2 : contains_zero lhsT = false)
    (hF : lhsF = [(0, 0)])
    (hlo : min_limit t ≤ lower_bound op2)
    (hmid : lower_bound op2 ≤ upper_bound op2)
    (hhi : upper_bound op2 ≤ max_limit t) :
    (operator_lt_op1_range t lhsT op2 =
      (if upper_bound op2 = min_limit t then []
       else [(min_limit t, upper_bound op2 - 1)])) ∧
    (operator_lt_op1_range t lhsF op2 = [(lower_bound op2, max_limit t)]) ∧
    (operator_le_op1_range t lhsT op2 = [(min_limit t, upper_bound op2)]) ∧
    (operator_le_op1_range t lhsF op2 =
      (if lower_bound op2 = max_limit t then []
       else [(lower_bound op2 + 1, max_limit t)])) ∧
    (operator_gt_op1_range t lhsT op2 =
      (if lower_bound op2 = max_limit t then []
       else [(lower_bound op2 + 1, max_limit t)])) ∧
    (operator_gt_op1_range t lhsF op2 = [(min_limit t, upper_bound op2)]) ∧
    (operator_ge_op1_range t lhsT op2 = [(lower_bound op2, max_limit t)]) ∧
    (operator_ge_op1_range t lhsF op2 =
      (if upper_bound op2 = min_limit t then []
       else [(min_limit t, upper_bound op2 - 1)])) := by
  have hTz : zero_p lhsT = false := by
    cases hz : zero_p lhsT
    · rfl
    · have : lhsT = [(0, 0)] := by simpa [zero_p] using hz
      rw [this] at hT2
      simp [contains_zero] at hT2
  have hstT : get_bool_state lhsT = BoolRangeState.brsTrue := by
    unfold get_bool_state
    rw [if_neg hT1, if_neg (by simp [hTz]), if_neg (by simp [hT2])]
  have hstF : get_bool_state lhsF = BoolRangeState.brsFalse := by
    unfold get_bool_state
    rw [if_neg (by simp [hF]), if_pos (by simp [hF, zero_p])]
  refine ⟨?_, ?_, ?_, ?_, ?_, ?_, ?_, ?_⟩
  · unfold operator_lt_op1_range
    rw [hstT]
    exact build_lt_eq t hp (upper_bound op2) (by omega) hhi
  · unfold operator_lt_op1_range
    rw [hstF]
    rfl
  · unfold operator_le_op1_range
    rw [hstT]
    rfl
  · unfold operator_le_op1_range
    rw [hstF]
    exact build_gt_eq t hp (lower_bound op2) hlo (by omega)
  · unfold operator_gt_op1_range
    rw [hstT]
    exact build_gt_eq t hp (lower_bound op2) hlo (by omega)
  · unfold operator_gt_op1_range
    rw [hstF]
    rfl
  · unfold operator_ge_op1_range
    rw [hstT]
    rfl
  · unfold operator_ge_op1_range
    rw [hstF]
    exact build_lt_eq t hp (upper_bound op2) (by omega) hhi

/-- Witness for the C5 theorem: inverting at the unsigned 8-bit type with
result range true [1,1] or false [0,0] and op2 being [5,10]. -/
theorem comparison_op1_range_spec_witness :
    operator_lt_op1_range u8 [(1, 1)] [(5, 10)] = [(0, 9)] ∧
    operator_gt_op1_range u8 [(0, 0)] [(5, 10)] = [(0, 10)] := by
  have h := comparison_op1_range_spec u8 (by decide) [(1, 1)] [(0, 0)] [(5, 10)]
    (by decide) (by decide) (by decide) (by decide) (by decide) (by decide)
  refine ⟨?_, ?_⟩
  · have h1 := h.1
    simpa using h1
  · have h6 := h.2.2.2.2.2.1
    simpa using h6

/-- operator_logical_and::fold_range: the first test answers false when the
first operand is exactly zero, or when the first operand's lower bound and
the SECOND operand's upper bound are both zero; otherwise a zero in either
operand leaves both states open, else the result is definitely true. -/
def operator_logical_and_fold_range (t : IType) (lh rh : VRange) : VRange :=
  if lh = [] ∨ rh = [] then set_varying t
  else if (lower_bound lh = 0 ∧ upper_bound lh = 0) ∨
          (lower_bound lh = 0 ∧ upper_bound rh = 0) then range_false t
  else if contains_zero lh = true ∨ contains_zero rh = true then range_true_and_false t
  else range_true t

/-- The behavior of the logical AND fold described with the zero_p test on
the first operand, as the amended claim states it. -/
def logical_and_fold_spec (t : IType) (lh rh : VRange) : VRange :=
  if zero_p lh = true ∨ (lower_bound lh = 0 ∧ upper_bound rh = 0) then range_false t
  else if contains_zero lh = true ∨ contains_zero rh = true then range_true_and_false t
  else range_true t

/-- Claim C6 as stated is false: a known-false second operand does not by
itself force the AND fold to false; with lh = [1,1] and rh = [0,0] the
fold answers the both-states range instead of the false range. -/
theorem operator_logical_and_rh_false_not_forced :
    zero_p [(0, 0)] = true ∧
    operator_logical_and_fold_range bool1 [(1, 1)] [(0, 0)] =
      range_true_and_false bool1 ∧
    operator_logical_and_fold_range bool1 [(1, 1)] [(0, 0)] ≠ range_false bool1 := by
  refine ⟨by decide, by decide, by decide⟩

/-- Claim C6 amended: the fold is definitely false when the FIRST operand
is exactly [0,0], or when the first operand's lower bound is zero and the
second operand's upper bound is zero; if neither holds, it is both-states
when either operand contains zero, and definitely true otherwise. -/
theorem operator_logical_and_fold_range_amended (t : IType) (lh rh : VRange)
    (h1 : lh ≠ []) (h2 : rh ≠ []) (ho : pairsOrderedB lh = true) :
    operator_logical_and_fold_range t lh rh = logical_and_fold_spec t lh rh := by
  unfold operator_logical_and_fold_range logical_and_fold_spec
  rw [if_neg (by simp [h1, h2])]
  have hiff : (lower_bound lh = 0 ∧ upper_bound lh = 0) ↔ zero_p lh = true := by
    constructor
    · rintro ⟨ha, hb⟩
      cases lh with
      | nil => exact absurd rfl h1
      | cons p rest =>
        cases rest with
        | nil =>
          simp only [lower_bound, List.headD_cons] at ha
          simp only [upper_bound] at hb
          have hpz : p = (0, 0) := by
            obtain ⟨x, y⟩ := p
            simp only [List.getLastD, List.getLast_singleton] at hb
            simp only at ha
            simp [ha, hb]
          simp [zero_p, hpz]
        | cons q rest2 =>
          exfalso
          simp only [pairsOrderedB, Bool.and_eq_true, decide_eq_true_eq] at ho
          have hq := lower_le_upper_of_ordered (q :: rest2) (by
            rcases q with ⟨qa, qb⟩
            exact ho.2) (by simp)
          rw [upper_bound_cons_cons] at hb
          simp only [lower_bound, List.headD_cons] at ha hq
          rcases p with ⟨pa, pb⟩
          rcases q with ⟨qa, qb⟩
          simp only at ha
          omega
    · intro hz
      have : lh = [(0, 0)] := by simpa [zero_p] using hz
      rw [this]
      constructor <;> rfl
  exact if_congr (or_congr hiff Iff.rfl) rfl rfl

/-- Witness for the amended C6 theorem on concrete boolean ranges. -/
theorem operator_logical_and_fold_range_amended_witness :
    operator_logical_and_fold_range bool1 [(0, 0)] [(0, 1)] =
      logical_and_fold_spec bool1 [(0, 0)] [(0, 1)] := by
  exact operator_logical_and_fold_range_amended bool1 [(0, 0)] [(0, 1)]
    (by decide) (by decide) (by decide)

/-- inDomainB unfolded to a universally quantified statement. -/
theorem inDomainB_iff (t : IType) (r : VRange) :
    inDomainB t r = true ↔
      ∀ p ∈ r, min_limit t ≤ p.1 ∧ p.1 ≤ p.2 ∧ p.2 ≤ max_limit t := by
  simp [inDomainB, List.all_eq_true, and_assoc]

/-- Membership in a two-list merge comes from one of the two lists. -/
theorem mergeLists_mem :
    ∀ (a b : List (Int × Int)) (p : Int × Int),
      p ∈ mergeLists a b → p ∈ a ∨ p ∈ b
  | [], b, p, h => by
    rw [mergeLists_nil_left] at h
    exact Or.inr h
  | x :: xs, [], p, h => by
    simp only [mergeLists] at h
    exact Or.inl h
  | x :: xs, y :: ys, p, h => by
    simp only [mergeLists] at h
    by_cases hc : x.1 ≤ y.1
    · rw [if_pos hc] at h
      rcases List.mem_cons.mp h with h1 | h1
      · exact Or.inl (by simp [h1])
      · rcases mergeLists_mem xs (y :: ys) p h1 with h2 | h2
        · exact Or.inl (by simp [h2])
        · exact Or.inr h2
    · rw [if_neg hc] at h
      rcases List.mem_cons.mp h with h1 | h1
      · exact Or.inr (by simp [h1])
      · rcases mergeLists_mem (x :: xs) ys p h1 with h2 | h2
        · exact Or.inl h2
        · exact Or.inr (by simp [h2])
termination_by a b => a.length + b.length

/-- Properties closed under the pair-fusion step survive normalization. -/
theorem mergeRun_all (Q : Int × Int → Prop)
    (hQ : ∀ a b c d, Q (a, b) → Q (c, d) → Q (a, max b d)) :
    ∀ (l : List (Int × Int)), (∀ p ∈ l, Q p) → ∀ p ∈ mergeRun l, Q p
  | [], h, p, hp => by simp [mergeRun] at hp
  | [q], h, p, hp => by
    simp only [mergeRun] at hp
    rcases List.mem_singleton.mp hp with rfl
    exact h q (by simp)
  | (a, b) :: (c, d) :: rest, h, p, hp => by
    simp only [mergeRun] at hp
    by_cases hc : c ≤ b + 1
    · rw [if_pos hc] at hp
      refine mergeRun_all Q hQ ((a, max b d) :: rest) ?_ p hp
      intro q hq
      rcases List.mem_cons.mp hq with rfl | h1
      · exact hQ a b c d (h (a, b) (by simp)) (h (c, d) (by simp))
      · exact h q (by simp [h1])
    · rw [if_neg hc] at hp
      rcases List.mem_cons.mp hp with h1 | h1
      · rw [h1]
        exact h (a, b) (by simp)
      · exact mergeRun_all Q hQ ((c, d) :: rest) (fun q hq => h q (by simp [hq])) p h1
termination_by l => l.length

/-- Union preserves the in-domain property. -/
theorem union_inDomain (t : IType) (a b : VRange)
    (ha : inDomainB t a = true) (hb : inDomainB t b = true) :
    inDomainB t (union_ a b) = true := by
  rw [inDomainB_iff] at ha hb ⊢
  intro p hp
  refine mergeRun_all
    (fun q => min_limit t ≤ q.1 ∧ q.1 ≤ q.2 ∧ q.2 ≤ max_limit t)
    ?_ (mergeLists a b) ?_ p hp
  · intro x y z w h1 h2
    refine ⟨h1.1, le_trans h1.2.1 (le_max_left _ _), ?_⟩
    rcases max_choice y w with hm | hm <;> rw [hm]
    · exact h1.2.2
    · exact h2.2.2
  · intro q hq
    rcases mergeLists_mem a b q hq with h1 | h1
    · exact ha q h1
    · exact hb q h1

/-- A left fold of unions over in-domain ranges stays in-domain. -/
theorem foldl_union_inDomain (t : IType) :
    ∀ (args : List VRange) (r : VRange), inDomainB t r = true →
      (∀ a ∈ args, inDomainB t a = true) →
      inDomainB t (args.foldl union_ r) = true
  | [], r, hr, _ => hr
  | a :: rest, r, hr, h => by
    simp only [List.foldl_cons]
    exact foldl_union_inDomain t rest (union_ r a)
      (union_inDomain t r a hr (h a (by simp)))
      (fun x hx => h x (by simp [hx]))

/-- Intersecting an in-domain range with the varying range is the identity. -/
theorem intersect_varying_right (t : IType) (r : VRange)
    (h : inDomainB t r = true) : intersect r (set_varying t) = r := by
  induction r with
  | nil => rfl
  | cons p ps ih =>
    rw [inDomainB_iff] at h
    have hp := h p (by simp)
    have hps : inDomainB t ps = true := by
      rw [inDomainB_iff]
      exact fun q hq => h q (by simp [hq])
    simp only [intersect, set_varying, List.flatMap_cons] at ih ⊢
    rw [ih hps]
    simp only [List.filterMap_cons, List.filterMap_nil]
    rw [show max p.1 (min_limit t) = p.1 by omega,
        show min p.2 (max_limit t) = p.2 by omega]
    rw [if_pos (by omega)]
    simp

/-- The union accumulation loop of range_of_phi: union each incoming
argument range, stopping as soon as the accumulator reaches varying. -/
def phi_union_args (t : IType) : List VRange → VRange → VRange
  | [], r => r
  | a :: rest, r =>
    let r2 := union_ r a
    if varying_p t r2 = true then r2 else phi_union_args t rest r2

/-- The early-exit union loop equals the plain left fold of the unions. -/
theorem phi_union_args_eq (t : IType) :
    ∀ (args : List VRange) (r : VRange), (∀ a ∈ args, inDomainB t a = true) →
      phi_union_args t args r = args.foldl union_ r
  | [], r, _ => rfl
  | a :: rest, r, h => by
    simp only [phi_union_args, List.foldl_cons]
    by_cases hv : varying_p t (union_ r a) = true
    · rw [if_pos hv]
      have hveq : union_ r a = set_varying t := by simpa [varying_p] using hv
      rw [hveq, foldl_union_varying t rest (fun x hx => h x (by simp [hx]))]
    · rw [if_neg hv]
      exact phi_union_args_eq t rest _ (fun x hx => h x (by simp [hx]))

/-- fold_using_range::range_of_phi: fail on an unsupported result type;
otherwise union the incoming range of every argument with early exit at
varying, then, when SCEV is initialized, the type is not a pointer type
and the statement sits in a real loop with a non-varying loop range,
intersect with that loop range. -/
def range_of_phi (t : IType) (typeSupported isPtr scevInit : Bool)
    (args : List VRange) (loopInfo : Option VRange) : Option VRange :=
  if typeSupported = false then none
  else
    let r := phi_union_args t args []
    let r2 :=
      if scevInit = true ∧ isPtr = false then
        match loopInfo with
        | Option.some lr => if varying_p t lr = false then intersect r lr else r
        | Option.none => r
      else r
    some r2

/-- The claimed behavior of range_of_phi: the union over all argument
ranges intersected with the externally supplied loop range (taken as
varying when SCEV facts do not apply). -/
def range_of_phi_spec (t : IType) (isPtr scevInit : Bool)
    (args : List VRange) (loopInfo : Option VRange) : VRange :=
  intersect (args.foldl union_ [])
    (if scevInit = true ∧ isPtr = false then loopInfo.getD (set_varying t)
     else set_varying t)

/-- Claim C7: for a supported result type the evaluated PHI range is the
union of the incoming argument ranges (the early exit at varying does not
change the outcome), intersected with the loop-derived range whenever SCEV
information is available and the type is not a pointer type; an
unsupported type fails. -/
theorem range_of_phi_spec_correct (t : IType) (isPtr scevInit : Bool)
    (args : List VRange) (loopInfo : Option VRange)
    (hargs : ∀ a ∈ args, inDomainB t a = true) :
    range_of_phi t true isPtr scevInit args loopInfo =
      some (range_of_phi_spec t isPtr scevInit args loopInfo) ∧
    range_of_phi t false isPtr scevInit args loopInfo = none := by
  constructor
  · unfold range_of_phi range_of_phi_spec
    rw [if_neg (by simp)]
    simp only [phi_union_args_eq t args [] hargs]
    have hdom : inDomainB t (args.foldl union_ []) = true :=
      foldl_union_inDomain t args [] (by rfl) hargs
    by_cases hs : scevInit = true ∧ isPtr = false
    · rw [if_pos hs, if_pos hs]
      cases loopInfo with
      | none =>
        simp only [Option.getD_none]
        rw [intersect_varying_right t _ hdom]
      | some lr =>
        simp only [Option.getD_some]
        by_cases hv : varying_p t lr = false
        · rw [if_pos hv]
        · rw [if_neg hv]
          have : lr = set_varying t := by
            cases hq : varying_p t lr
            · exact absurd hq hv
            · simpa [varying_p] using hq
          rw [this, intersect_varying_right t _ hdom]
    · rw [if_neg hs, if_neg hs]
      rw [intersect_varying_right t _ hdom]
  · rfl

/-- Witness for the C7 theorem on two concrete incoming ranges with an
available loop range. -/
theorem range_of_phi_spec_correct_witness :
    range_of_phi u8 true false true [[(1, 5)], [(10, 20)]] (some [(0, 12)]) =
      some (range_of_phi_spec u8 false true [[(1, 5)], [(10, 20)]] (some [(0, 12)])) := by
  exact (range_of_phi_spec_correct u8 false true [[(1, 5)], [(10, 20)]] (some [(0, 12)])
    (by intro a ha; fin_cases ha <;> decide)).1

/-- The operand-range source that serves ranges from a caller-supplied
list (fur_list): the local two-element buffer, the cursor, and the limit. -/
structure FurList where
  locals : List VRange
  index : Nat
  limit : Nat
deriving DecidableEq, Repr

/-- fur_list::fur_list (irange &r1, irange &r2): the constructor writes R1
into slot 0 of the local buffer and then writes R2 into slot 0 as well,
leaving slot 1 at whatever the freshly built local buffer held. -/
def fur_list_two (m_local : List VRange) (r1 r2 : VRange) : FurList :=
  { locals := (m_local.set 0 r1).set 0 r2, index := 0, limit := 2 }

/-- fur_list::get_operand: serve the next stored range while the cursor is
below the limit, else fall back to the global range query for the operand. -/
def fur_list_get_operand (f : FurList) (fallback : VRange) : VRange × FurList :=
  if f.limit ≤ f.index then (fallback, f)
  else (f.locals.getD f.index [], { f with index := f.index + 1 })

/-- The two-range fold_range entry point, reduced to the order in which
range_of_range_op fetches operand ranges from the source: the first fetch
feeds the first operand of the fold and the second fetch the second. -/
def fold_range_two_explicit (m_local : List VRange)
    (fold : VRange → VRange → VRange) (r1 r2 fb1 fb2 : VRange) : VRange :=
  let src := fur_list_two m_local r1 r2
  let g1 := fur_list_get_operand src fb1
  let g2 := fur_list_get_operand g1.2 fb2
  fold g1.1 g2.1

/-- Claim C9 fails on the code: because both constructor stores target
slot 0, the first operand of a binary statement is folded with R2 (not
R1), and the second operand receives the stale initial content of the
local buffer (not R2). -/
theorem fur_list_two_misassigns_operands (m_local : List VRange)
    (fold : VRange → VRange → VRange) (r1 r2 fb1 fb2 : VRange)
    (hlen : m_local.length = 2) :
    (fur_list_get_operand (fur_list_two m_local r1 r2) fb1).1 = r2 ∧
    fold_range_two_explicit m_local fold r1 r2 fb1 fb2 =
      fold r2 (m_local.getD 1 []) := by
  obtain ⟨x, y, hxy⟩ : ∃ x y, m_local = [x, y] := by
    cases m_local with
    | nil => simp at hlen
    | cons a as =>
      cases as with
      | nil => simp at hlen
      | cons b bs =>
        cases bs with
        | nil => exact ⟨a, b, rfl⟩
        | cons c cs => simp at hlen
  subst hxy
  constructor <;> rfl

/-- Witness for the C9 theorem: with the buffer freshly holding undefined
ranges, folding r1=[1,1], r2=[5,5] picks [5,5] as the FIRST operand and
the undefined buffer content as the second. -/
theorem fur_list_two_misassigns_operands_witness :
    ([([] : VRange), []].length = 2) ∧
    (fur_list_get_operand (fur_list_two [[], []] [(1, 1)] [(5, 5)]) []).1 = [(5, 5)] ∧
    fold_range_two_explicit [[], []] (fun a _ => a) [(1, 1)] [(5, 5)] [] [] = [(5, 5)] := by
  have h := fur_list_two_misassigns_operands [[], []] (fun a _ => a)
    [(1, 1)] [(5, 5)] [] [] (by decide)
  exact ⟨by decide, h.1, h.2⟩

/-- A range operator handler as consulted by the inversion entry points. -/
structure RangeOpHandler where
  op1r : VRange → VRange → VRange × Bool
  op2r : VRange → VRange → VRange × Bool

/-- gimple_range_calc_op1, unary overload: an empty lhs range is viral;
otherwise the handler's op1_range runs with the varying range of the
operand type in the second position. -/
def gimple_range_calc_op1_unary (h : RangeOpHandler) (t : IType)
    (lhs_range : VRange) : VRange × Bool :=
  if lhs_range = [] then ([], true)
  else h.op1r lhs_range (set_varying t)

/-- gimple_range_calc_op1, binary overload: an empty lhs or op2 range is
viral; otherwise the handler's op1_range runs. -/
def gimple_range_calc_op1_binary (h : RangeOpHandler)
    (lhs_range op2_range : VRange) : VRange × Bool :=
  if op2_range = [] ∨ lhs_range = [] then ([], true)
  else h.op1r lhs_range op2_range

/-- gimple_range_calc_op2: an empty lhs or op1 range is viral; otherwise
the handler's op2_range runs. -/
def gimple_range_calc_op2 (h : RangeOpHandler)
    (lhs_range op1_range : VRange) : VRange × Bool :=
  if op1_range = [] ∨ lhs_range = [] then ([], true)
  else h.op2r lhs_range op1_range

/-- Claim C10: when the supplied lhs range, or for the binary forms the
other operand's range, is undefined, the inversion entry points answer
the undefined range with success, and the answer does not depend on the
handler: op1_range/op2_range are never consulted. -/
theorem gimple_range_calc_empty_viral (h h2 : RangeOpHandler) (t : IType)
    (lhs op2 op1 : VRange) :
    (lhs = [] →
      gimple_range_calc_op1_unary h t lhs = ([], true) ∧
      gimple_range_calc_op1_unary h t lhs = gimple_range_calc_op1_unary h2 t lhs) ∧
    (lhs = [] ∨ op2 = [] →
      gimple_range_calc_op1_binary h lhs op2 = ([], true) ∧
      gimple_range_calc_op1_binary h lhs op2 = gimple_range_calc_op1_binary h2 lhs op2) ∧
    (lhs = [] ∨ op1 = [] →
      gimple_range_calc_op2 h lhs op1 = ([], true) ∧
      gimple_range_calc_op2 h lhs op1 = gimple_range_calc_op2 h2 lhs op1) := by
  refine ⟨?_, ?_, ?_⟩
  · intro he
    unfold gimple_range_calc_op1_unary
    rw [if_pos he, if_pos he]
    exact ⟨rfl, rfl⟩
  · intro he
    unfold gimple_range_calc_op1_binary
    rw [if_pos (Or.symm he), if_pos (Or.symm he)]
    exact ⟨rfl, rfl⟩
  · intro he
    unfold gimple_range_calc_op2
    rw [if_pos (Or.symm he), if_pos (Or.symm he)]
    exact ⟨rfl, rfl⟩

/-- Witness for the C10 theorem with two handlers that would disagree if
they were ever consulted. -/
theorem gimple_range_calc_empty_viral_witness :
    gimple_range_calc_op1_binary ⟨fun a _ => (a, false), fun a _ => (a, false)⟩
      [(1, 2)] [] = ([], true) ∧
    gimple_range_calc_op1_binary ⟨fun a _ => (a, false), fun a _ => (a, false)⟩
      [(1, 2)] [] =
    gimple_range_calc_op1_binary ⟨fun _ b => (b, true), fun _ b => (b, true)⟩
      [(1, 2)] [] := by
  exact (gimple_range_calc_empty_viral
    ⟨fun a _ => (a, false), fun a _ => (a, false)⟩
    ⟨fun _ b => (b, true), fun _ b => (b, true)⟩
    u8 [(1, 2)] [] []).2.1 (Or.inr rfl)

/-- An abstract operand or lhs expression of a statement, carrying the
facts the range machinery tests on it. -/
structure GTree where
  isSSA : Bool
  isVirtualOperand : Bool
  typeSupported : Bool
deriving DecidableEq, Repr

/-- Modelled from the spec: gimple_range_ssa_p is declared in a range
header that is not among these sources; per the specification a value is
traceable exactly when it is a non-virtual SSA name whose type lies in
the supported domain (integer, boolean or pointer). -/
def gimple_range_ssa_p (x : Option GTree) : Bool :=
  match x with
  | some n => n.isSSA && !n.isVirtualOperand && n.typeSupported
  | none => false

/-- The statement shapes fold_stmt dispatches on: an ADDR_EXPR assignment,
a statement with a registered operator handler, a PHI, a call, a COND_EXPR
assignment, or anything else (no sub-evaluator applies). -/
inductive StmtKind where
  | addrExpr
  | rangeOp
  | phiStmt
  | callStmt
  | condExpr
  | unhandled
deriving DecidableEq, Repr

/-- An abstract statement: its dispatch shape, its lhs (if any), and the
supported-type facts each sub-evaluator tests. -/
structure GStmt where
  kind : StmtKind
  lhs : Option GTree
  exprTypeSupported : Bool
  phiTypeSupported : Bool
  callTypeSupported : Bool
  condOpTypeSupported : Bool
deriving DecidableEq, Repr

/-- The name fold_stmt works with: the supplied one, or the statement lhs. -/
def stmt_name (s : GStmt) (name0 : Option GTree) : Option GTree :=
  match name0 with
  | some n => some n
  | none => s.lhs

/-- The success of the sub-evaluator dispatch inside fold_stmt:
range_of_range_op always succeeds, range_of_phi / range_of_call /
range_of_cond_expr fail exactly on an unsupported type, and a statement
with no sub-evaluator leaves the result flag false. -/
def fold_using_range_dispatch (s : GStmt) : Bool :=
  match s.kind with
  | StmtKind.rangeOp => true
  | StmtKind.phiStmt => s.phiTypeSupported
  | StmtKind.callStmt => s.callTypeSupported
  | StmtKind.condExpr => s.condOpTypeSupported
  | _ => false

/-- fold_using_range::fold_stmt, reduced to its success flag: ADDR_EXPR
assignments always succeed; a successful sub-evaluator succeeds; otherwise
with no name the statement succeeds exactly when its expression type is
supported, and with a name exactly when the name is a traceable SSA name
(the global range is then returned). -/
def fold_stmt_success (s : GStmt) (name0 : Option GTree) : Bool :=
  if s.kind = StmtKind.addrExpr then true
  else if fold_using_range_dispatch s = true then true
  else
    match stmt_name s name0 with
    | none => s.exprTypeSupported
    | some n => gimple_range_ssa_p (some n)

/-- gimple_ranger::range_of_stmt, reduced to its success flag: with no
name it defers to fold_stmt; with a name it fails exactly when the name is
not a traceable SSA name, and otherwise succeeds through the cache or a
fresh fold. -/
def range_of_stmt_success (s : GStmt) (name0 : Option GTree) : Bool :=
  match stmt_name s name0 with
  | none => fold_stmt_success s none
  | some n => gimple_range_ssa_p (some n)

/-- fold_using_range::range_of_call, reduced to its success flag: it fails
exactly when the call's return type is unsupported. -/
def range_of_call_success (s : GStmt) : Bool := s.callTypeSupported

/-- Claim C8 fails on the code: an unhandled statement whose lhs is not an
SSA name (a store through memory, say) makes fold_stmt and range_of_stmt
return false even though the lhs type is in the supported domain. -/
theorem fold_stmt_fails_on_supported_non_ssa_lhs :
    fold_stmt_success
      ⟨StmtKind.unhandled, some ⟨false, false, true⟩, true, true, true, true⟩
      none = false ∧
    range_of_stmt_success
      ⟨StmtKind.unhandled, some ⟨false, false, true⟩, true, true, true, true⟩
      none = false ∧
    (⟨false, false, true⟩ : GTree).typeSupported = true := by
  refine ⟨by decide, by decide, by decide⟩

/-- Claim C8 amended: fold_stmt and range_of_stmt return false exactly
when the relevant type is outside the supported domain OR the queried
statement result exists but is not a traceable (non-virtual, supported)
SSA name; range_of_call fails exactly on an unsupported return type. -/
theorem query_success_characterization (s : GStmt) (name0 : Option GTree) :
    (fold_stmt_success s name0 = false ↔
      (s.kind ≠ StmtKind.addrExpr ∧ fold_using_range_dispatch s = false ∧
        ((stmt_name s name0 = none ∧ s.exprTypeSupported = false) ∨
         (∃ n, stmt_name s name0 = some n ∧ gimple_range_ssa_p (some n) = false)))) ∧
    (range_of_stmt_success s name0 = false ↔
      ((stmt_name s name0 = none ∧ fold_stmt_success s none = false) ∨
       (∃ n, stmt_name s name0 = some n ∧ gimple_range_ssa_p (some n) = false))) ∧
    (range_of_call_success s = false ↔ s.callTypeSupported = false) := by
  refine ⟨?_, ?_, Iff.rfl⟩
  · unfold fold_stmt_success
    by_cases ha : s.kind = StmtKind.addrExpr
    · rw [if_pos ha]
      simp [ha]
    · rw [if_neg ha]
      by_cases hd : fold_using_range_dispatch s = true
      · rw [if_pos hd]
        simp [ha, hd]
      · rw [if_neg hd]
        have hd2 : fold_using_range_dispatch s = false := by
          cases hq : fold_using_range_dispatch s
          · rfl
          · exact absurd hq hd
        cases hn : stmt_name s name0 with
        | none => simp [ha, hd2, hn]
        | some n => simp [ha, hd2, hn]
  · unfold range_of_stmt_success
    cases hn : stmt_name s name0 with
    | none => simp [hn]
    | some n => simp [hn]

/-- Exactly one of the two bounds overflowed. -/
def exactly_one_overflow (min_ovf max_ovf : Ovf) : Prop :=
  ¬ (min_ovf = Ovf.none ↔ max_ovf = Ovf.none)

/-- The case analysis claimed for the add/subtract per-pair primitives:
under wrapping semantics, bounds overflowing the same way (or neither)
give the modulo-truncated contiguous range (varying when the truncated
limits are swapped), and a single overflowed bound gives the complement
range built from the overflowed bounds or conservatively varying; under
non-wrapping semantics each overflowed bound saturates to the type limit,
and two bounds overflowing in the same direction give undefined. -/
def claimC2_cases (t : IType) (wmin wmax : Int) (min_ovf max_ovf : Ovf)
    (result : VRange) : Prop :=
  (t.wraps = true →
    (min_ovf = max_ovf →
      result = (if wrapVal t wmax < wrapVal t wmin then set_varying t
                else [(wrapVal t wmin, wrapVal t wmax)])) ∧
    (exactly_one_overflow min_ovf max_ovf →
      result = value_range_from_overflowed_bounds t wmin wmax ∨
      result = set_varying t)) ∧
  (t.wraps = false →
    ((min_ovf = max_ovf ∧ min_ovf ≠ Ovf.none) → result = []) ∧
    (¬ (min_ovf = max_ovf ∧ min_ovf ≠ Ovf.none) →
      result = [(if min_ovf = Ovf.underflow then min_limit t
                 else if min_ovf = Ovf.overflow then max_limit t else wmin,
                 if max_ovf = Ovf.underflow then min_limit t
                 else if max_ovf = Ovf.overflow then max_limit t else wmax)]))

/-- Claim C2 instantiated at operator_plus::wi_fold. -/
def claimC2_plus (t : IType) (lh_lb lh_ub rh_lb rh_ub : Int) : Prop :=
  claimC2_cases t (addOvf t lh_lb rh_lb).1 (addOvf t lh_ub rh_ub).1
    (addOvf t lh_lb rh_lb).2 (addOvf t lh_ub rh_ub).2
    (operator_plus_wi_fold t lh_lb lh_ub rh_lb rh_ub)

/-- Claim C2 instantiated at operator_minus::wi_fold. -/
def claimC2_minus (t : IType) (lh_lb lh_ub rh_lb rh_ub : Int) : Prop :=
  claimC2_cases t (subOvf t lh_lb rh_ub).1 (subOvf t lh_ub rh_lb).1
    (subOvf t lh_lb rh_ub).2 (subOvf t lh_ub rh_lb).2
    (operator_minus_wi_fold t lh_lb lh_ub rh_lb rh_ub)

/-- value_range_with_overflow satisfies the claimed case analysis for any
type of at least two bits of precision. -/
theorem value_range_with_overflow_cases (t : IType) (hp : 2 ≤ t.prec)
    (wmin wmax : Int) (min_ovf max_ovf : Ovf) :
    claimC2_cases t wmin wmax min_ovf max_ovf
      (value_range_with_overflow t wmin wmax min_ovf max_ovf) := by
  have hg : ¬ (t.prec = 1 ∧ wmax ≠ wmin) := by
    rintro ⟨h1, _⟩
    omega
  cases hw : t.wraps <;> cases min_ovf <;> cases max_ovf <;>
    simp [claimC2_cases, value_range_with_overflow, exactly_one_overflow, hg, hw]

/-- Claim C2, amended with the 1-bit exception: at two or more bits of
precision the add and subtract per-pair primitives behave exactly as the
claim describes. -/
theorem plus_minus_wi_fold_claimC2 (t : IType) (hp : 2 ≤ t.prec)
    (lh_lb lh_ub rh_lb rh_ub : Int) :
    claimC2_plus t lh_lb lh_ub rh_lb rh_ub ∧
    claimC2_minus t lh_lb lh_ub rh_lb rh_ub := by
  constructor
  · unfold claimC2_plus operator_plus_wi_fold
    exact value_range_with_overflow_cases t hp _ _ _ _
  · unfold claimC2_minus operator_minus_wi_fold
    exact value_range_with_overflow_cases t hp _ _ _ _

/-- Claim C2 as stated is false for 1-bit types: adding [-1,-1] and [-1,0]
in the signed non-wrapping 1-bit type underflows only the lower bound, so
the claim predicts the saturated range [-1,-1], but the code's 1-bit test
answers varying. -/
theorem claimC2_fails_at_one_bit : ¬ claimC2_plus i1 (-1) (-1) (-1) 0 := by
  intro h
  have hw : i1.wraps = false := by decide
  have hnb : ¬ ((addOvf i1 (-1) (-1)).2 = (addOvf i1 (-1) 0).2 ∧
      (addOvf i1 (-1) (-1)).2 ≠ Ovf.none) := by decide
  have h2 := (h.2 hw).2 hnb
  exact absurd h2 (by decide)

/-- Witness for the amended C2 theorem at the unsigned 8-bit type with
both bounds of the sum overflowing. -/
theorem plus_minus_wi_fold_claimC2_witness :
    2 ≤ u8.prec ∧
    (claimC2_plus u8 200 250 100 120 ∧ claimC2_minus u8 200 250 100 120) := by
  exact ⟨by decide, plus_minus_wi_fold_claimC2 u8 (by norm_num [u8]) 200 250 100 120⟩

/-- Witness for the amended C8 theorem at a call statement with an
unsupported return type. -/
theorem query_success_characterization_witness :
    range_of_call_success ⟨StmtKind.callStmt, none, true, true, false, true⟩ = false ↔
      (⟨StmtKind.callStmt, none, true, true, false, true⟩ : GStmt).callTypeSupported
        = false :=
  (query_success_characterization
    ⟨StmtKind.callStmt, none, true, true, false, true⟩ none).2.2
